import Mathlib

/-!
Verification development for the MEGA file picker (src/mega-file-picker.tsx).

Strings are modelled as `List Char`.  The component's pure logic —
`parseNewStructure`, `getFileType`, and the samplers `pickRandomFile` /
`generateBatch` together with the state operations `handleFileUpload`,
`clearBatch`, `resetApp` — is embedded below.  Randomness is modelled by an
explicit draw stream `s : Nat → Nat` (the sequence of values of
`Math.floor(Math.random() * database.length)`), and the `while` loop of
`generateBatch` by its k-step iterate `genIter`.
-/

/-- A parsed file record (interface `MegaFile` in the source). -/
structure MegaFile where
  id : Nat
  fileName : List Char
  fullPath : List Char
  folderPath : List Char
  extension : List Char
  type : List Char
  handle : List Char
deriving DecidableEq

/-- The component state relevant to the claims: `database`, `currentBatch`,
`currentFile` (presentation state such as `isLoading` or `stats` is omitted). -/
structure PickerState where
  database : List MegaFile
  currentBatch : List MegaFile
  currentFile : Option MegaFile
deriving DecidableEq

/-- JS `String.prototype.split(c)` on a single-character separator:
`"a,,b".split(',') = ["a","","b"]`, `"".split(',') = [""]`. -/
def splitCh (c : Char) : List Char → List (List Char)
  | [] => [[]]
  | x :: xs =>
    if x = c then [] :: splitCh c xs
    else
      match splitCh c xs with
      | [] => [[x]]
      | h :: t => (x :: h) :: t

/-- Whitespace as used by JS `trim` / `\s` (restricted to the ASCII whitespace
`Char.isWhitespace` recognises; lines of real input only contain these). -/
def isWs (c : Char) : Bool := c.isWhitespace

/-- JS `String.prototype.trim`: strip whitespace from both ends. -/
def trimWs (l : List Char) : List Char :=
  ((l.dropWhile isWs).reverse.dropWhile isWs).reverse

/-- Substring test: JS `line.includes(pat)` for a non-empty pattern. -/
def containsSub (pat : List Char) : List Char → Bool
  | [] => false
  | c :: rest => pat.isPrefixOf (c :: rest) || containsSub pat rest

/-- The literal marker `<H:` of candidate lines. -/
def marker : List Char := ['<', 'H', ':']

/-- `line.includes('<H:')` — applied to the raw (untrimmed) line. -/
def hasMarker (l : List Char) : Bool := containsSub marker l

/-- Matching the tail of the regex `^(.+?)\s+<H:([^>]+)>$` after the path
group: the remainder must be one-or-more whitespace, the literal `<H:`, a
non-empty body without `>`, and a final `>` ending the line.  Returns the
handle body on success. -/
def restMatch (r : List Char) : Option (List Char) :=
  if (r.takeWhile isWs).isEmpty then none
  else
    match r.dropWhile isWs with
    | '<' :: 'H' :: ':' :: rest =>
      match rest.getLast? with
      | some g =>
        if g = '>' then
          if rest.dropLast.isEmpty then none
          else if rest.dropLast.contains '>' then none
          else some rest.dropLast
        else none
      | none => none
    | _ => none

/-- The regex engine for `^(.+?)\s+<H:([^>]+)>$`: the non-greedy group `(.+?)`
takes the shortest non-empty prefix (of characters matched by `.`, which
excludes line terminators) after which the rest of the line matches.  Returns
`(path group, handle group)`. -/
def regexAux (p : List Char) : List Char → Option (List Char × List Char)
  | [] => none
  | c :: rest =>
    if c = '\n' ∨ c = '\r' ∨ c = '\u2028' ∨ c = '\u2029' then none
    else
      match restMatch rest with
      | some h => some (p ++ [c], h)
      | none => regexAux (p ++ [c]) rest

/-- `trimmedLine.match(lineRegex)` (anchored at both ends). -/
def regexMatch (t : List Char) : Option (List Char × List Char) := regexAux [] t

/-- JS `Array.prototype.join('/')` on the segment list. -/
def joinSlash : List (List Char) → List Char
  | [] => []
  | [s] => s
  | s :: rest => s ++ '/' :: joinSlash rest

/-- Last element of a non-empty list of strings (JS `Array.prototype.pop`
on the results of `split`, which are always non-empty). -/
def lastD : List (List Char) → List Char
  | [] => []
  | [s] => s
  | _ :: rest => lastD rest

/-- JS `String.prototype.toLowerCase` (ASCII). -/
def lowerStr (l : List Char) : List Char := l.map Char.toLower

/-- The four fixed extension sets of `getFileType`. -/
def imageExts : List (List Char) :=
  [("jpg".toList), ("jpeg".toList), ("png".toList), ("gif".toList), ("bmp".toList), ("webp".toList)]

def videoExts : List (List Char) :=
  [("mp4".toList), ("avi".toList), ("mov".toList), ("wmv".toList), ("flv".toList), ("mkv".toList), ("webm".toList)]

def audioExts : List (List Char) :=
  [("mp3".toList), ("wav".toList), ("flac".toList), ("aac".toList), ("ogg".toList)]

def docExts : List (List Char) :=
  [("pdf".toList), ("doc".toList), ("docx".toList), ("txt".toList), ("rtf".toList)]

/-- `getFileType(extension)`. -/
def getFileType (extension : List Char) : List Char :=
  if extension ∈ imageExts then ("image".toList)
  else if extension ∈ videoExts then ("video".toList)
  else if extension ∈ audioExts then ("audio".toList)
  else if extension ∈ docExts then ("document".toList)
  else ("file".toList)

/-- The record-building part of the parse loop body: given the (already
trimmed) path and handle captures and the next id `n`, build the record, or
skip when the path has no non-empty segments. -/
def mkFile (n : Nat) (fp h : List Char) : Option MegaFile :=
  let pathSegments := (splitCh '/' fp).filter (fun s => ¬ s.isEmpty)
  if pathSegments.isEmpty then none
  else some {
    id := n
    fileName := lastD pathSegments
    fullPath := fp
    folderPath :=
      if 1 < pathSegments.length then '/' :: joinSlash pathSegments.dropLast else ['/']
    extension := lowerStr (lastD (splitCh '.' (lastD pathSegments)))
    type := getFileType (lowerStr (lastD (splitCh '.' (lastD pathSegments))))
    handle := h }

/-- One iteration of the parse loop on a single line: lines without the
`<H:` marker or not matching the regex yield no record. -/
def lineStep (n : Nat) (line : List Char) : Option MegaFile :=
  if hasMarker line then
    match regexMatch (trimWs line) with
    | some ph => mkFile n (trimWs ph.1) (trimWs ph.2)
    | none => none
  else none

/-- The parse loop over the line list; `n` is `files.length` so far, used as
the next record's id. -/
def parseLines : List (List Char) → Nat → List MegaFile
  | [], _ => []
  | l :: ls, n =>
    match lineStep n l with
    | some r => r :: parseLines ls (n + 1)
    | none => parseLines ls n

/-- `parseNewStructure(text)`. -/
def parse (text : List Char) : List MegaFile :=
  parseLines (splitCh '\n' text) 0

example : (parse ("/videos/trip/clip1.mp4   <H:AbCd1234XyZ>".toList)).map (fun r => r.fileName)
    = [("clip1.mp4".toList)] := by decide

example : (parse ("/videos/trip/clip1.mp4   <H:AbCd1234XyZ>".toList)).map (fun r => r.type)
    = [("video".toList)] := by decide

/-- `pickRandomFile` with a single random draw `j`
(`Math.floor(Math.random() * database.length)`, always `< database.length`
when the database is non-empty; an out-of-range `j` leaves the state
unchanged, a case the source never reaches). -/
def pickRandomFile (j : Nat) (st : PickerState) : PickerState :=
  if st.database.length = 0 then st
  else
    match st.database[j]? with
    | none => st
    | some f =>
      { st with
        currentFile := some f
        currentBatch :=
          if (st.currentBatch.find? (fun g => g.id == f.id)).isSome then st.currentBatch
          else f :: st.currentBatch }

/-- The body of `generateBatch`'s `while` loop, one iteration: `j` is this
iteration's random draw.  When the batch is full the state is left unchanged
(the loop has exited). -/
def genStep (recs : List MegaFile) (limit : Nat) (j : Nat) (b : List MegaFile) :
    List MegaFile :=
  if b.length < limit then
    match recs[j]? with
    | some f => if f.id ∈ b.map (fun g => g.id) then b else b ++ [f]
    | none => b
  else b

/-- The batch after `k` iterations of the rejection-sampling loop, drawing
indices from the stream `s`.  (The `used` set of the source always equals the
set of ids of `batch`, so it is represented by `b.map id`.) -/
def genIter (recs : List MegaFile) (limit : Nat) (s : Nat → Nat) : Nat → List MegaFile
  | 0 => []
  | k + 1 => genStep recs limit (s k) (genIter recs limit s k)

/-- The loop of `generateBatch` terminates on draw stream `s`: some finite
number of iterations fills the batch to the target size. -/
def loopTerminates (recs : List MegaFile) (limit : Nat) (s : Nat → Nat) : Prop :=
  ∃ k, limit ≤ (genIter recs limit s k).length

/-- `generateBatch(count)`: early return on an empty database; otherwise the
batch drawn by `k` loop iterations replaces `currentBatch`, and its first
element (`batch[0] || null`) becomes `currentFile`. -/
def generateBatch (s : Nat → Nat) (k : Nat) (count : Nat) (st : PickerState) :
    PickerState :=
  if st.database.length = 0 then st
  else
    let b := genIter st.database (min count st.database.length) s k
    { st with currentBatch := b, currentFile := b.head? }

/-- `handleFileUpload` (successful read): the parse result replaces the
database wholesale, and batch and selection are cleared. -/
def handleFileUpload (text : List Char) (st : PickerState) : PickerState :=
  { st with database := parse text, currentBatch := [], currentFile := none }

/-- `clearBatch`. -/
def clearBatch (st : PickerState) : PickerState :=
  { st with currentBatch := [], currentFile := none }

/-- `resetApp`. -/
def resetApp (_ : PickerState) : PickerState :=
  { database := [], currentBatch := [], currentFile := none }

/-- The reconstruction of C2: `folderPath + "/" + fileName`, with a
`folderPath` of `/` treated as the empty string. -/
def recon (r : MegaFile) : List Char :=
  (if r.folderPath = ['/'] then [] else r.folderPath) ++ '/' :: r.fileName

/-- Modelled from the spec: "extension: lowercased substring after the final
`.` in fileName" — the suffix of `l` after the last occurrence of `c`
(the whole of `l` when `c` does not occur). -/
def afterLastCh (c : Char) (l : List Char) : List Char :=
  (l.reverse.takeWhile (fun d => ¬ d = c)).reverse

/-- The selection-membership invariant of C10: whenever `currentFile` is set,
some batch entry carries its id. -/
def selInv (st : PickerState) : Bool :=
  match st.currentFile with
  | none => true
  | some f => st.currentBatch.any (fun g => g.id == f.id)

/-- The fields every parse-produced record satisfies, stated in terms of the
record's own `fullPath` (mirrors the loop body of `parseNewStructure`). -/
def recOK (r : MegaFile) : Prop :=
  ((splitCh '/' r.fullPath).filter (fun s => ¬ s.isEmpty)) ≠ [] ∧
  r.fileName = lastD ((splitCh '/' r.fullPath).filter (fun s => ¬ s.isEmpty)) ∧
  r.folderPath =
    (if 1 < ((splitCh '/' r.fullPath).filter (fun s => ¬ s.isEmpty)).length
     then '/' :: joinSlash ((splitCh '/' r.fullPath).filter (fun s => ¬ s.isEmpty)).dropLast
     else ['/']) ∧
  r.extension = lowerStr (lastD (splitCh '.' r.fileName))

/-- A concrete record (the parse of `/a.txt <H:h1>`), used as test data. -/
def fileA : MegaFile :=
  { id := 0, fileName := ("a.txt".toList), fullPath := ("/a.txt".toList)
    folderPath := ['/'], extension := ("txt".toList)
    type := ("document".toList), handle := ("h1".toList) }

/-- A second concrete record with a distinct id, used as test data. -/
def fileB : MegaFile :=
  { id := 1, fileName := ("b.mp3".toList), fullPath := ("/b.mp3".toList)
    folderPath := ['/'], extension := ("mp3".toList)
    type := ("audio".toList), handle := ("h2".toList) }

example : genIter [fileA, fileB] 2 (fun k => k) 2 = [fileA, fileB] := by decide

example : (pickRandomFile 0 { database := [fileA], currentBatch := [], currentFile := none }).currentBatch = [fileA] := by decide

theorem splitCh_ne_nil (c : Char) (l : List Char) : splitCh c l ≠ [] := by
  cases l with
  | nil => simp [splitCh]
  | cons x xs =>
    simp only [splitCh]
    split
    · simp
    · split <;> simp

theorem splitCh_not_mem {c : Char} {l : List Char} (h : c ∉ l) : splitCh c l = [l] := by
  induction l with
  | nil => rfl
  | cons x xs ih =>
    have hx : ¬ x = c := fun he => h (by simp [he])
    have hxs : c ∉ xs := fun hm => h (by simp [hm])
    simp only [splitCh, if_neg hx, ih hxs]

theorem splitCh_single {c : Char} {l s : List Char} (h : splitCh c l = [s]) :
    s = l ∧ c ∉ l := by
  induction l generalizing s with
  | nil => simp [splitCh] at h; simp [h]
  | cons x xs ih =>
    by_cases hx : x = c
    · exfalso
      simp only [splitCh, if_pos hx] at h
      have := splitCh_ne_nil c xs
      simp at h
      exact this h.2
    · simp only [splitCh, if_neg hx] at h
      cases hS : splitCh c xs with
      | nil => exact absurd hS (splitCh_ne_nil c xs)
      | cons s0 t0 =>
        rw [hS] at h
        injection h with h1 h2
        subst h2
        obtain ⟨hs0, hnm⟩ := ih hS
        subst h1
        constructor
        · rw [hs0]
        · intro hm
          rcases List.mem_cons.mp hm with hh1 | hh2
          · exact hx hh1.symm
          · exact hnm hh2

theorem lastD_cons {s : List Char} {t : List (List Char)} (h : t ≠ []) :
    lastD (s :: t) = lastD t := by
  cases t with
  | nil => exact absurd rfl h
  | cons u v => simp [lastD]

theorem takeWhile_append_last {p : Char → Bool}
    (A B : List Char) (hA : ∃ a ∈ A, p a = false) :
    (A ++ B).takeWhile p = A.takeWhile p := by
  induction A with
  | nil => simp at hA
  | cons a A ih =>
    by_cases ha : p a
    · have hA' : ∃ x ∈ A, p x = false := by
        rcases hA with ⟨x, hx, hpx⟩
        rcases List.mem_cons.mp hx with h1 | h2
        · rw [h1] at hpx; rw [ha] at hpx; cases hpx
        · exact ⟨x, h2, hpx⟩
      simp [List.takeWhile_cons, ha, ih hA']
    · simp only [Bool.not_eq_true] at ha
      simp [List.takeWhile_cons, ha]

theorem takeWhile_append_one {p : Char → Bool} {c : Char} (hc : p c = false)
    (A : List Char) : (A ++ [c]).takeWhile p = A.takeWhile p := by
  induction A with
  | nil => simp [List.takeWhile_cons, hc]
  | cons a A ih =>
    by_cases ha : p a
    · simp [List.takeWhile_cons, ha, ih]
    · simp only [Bool.not_eq_true] at ha
      simp [List.takeWhile_cons, ha]

theorem afterLastCh_not_mem {c : Char} {l : List Char} (h : c ∉ l) :
    afterLastCh c l = l := by
  unfold afterLastCh
  have : l.reverse.takeWhile (fun d => ¬ d = c) = l.reverse := by
    apply List.takeWhile_eq_self_iff.mpr
    intro a ha
    have : a ∈ l := List.mem_reverse.mp ha
    simp only [decide_eq_true_eq]
    intro he
    exact h (he ▸ this)
  rw [this, List.reverse_reverse]

theorem lastD_splitCh (c : Char) (l : List Char) :
    lastD (splitCh c l) = afterLastCh c l := by
  induction l with
  | nil => simp [splitCh, lastD, afterLastCh]
  | cons x xs ih =>
    have hpc : (fun d => decide (¬ d = c)) c = false := by simp
    by_cases hx : x = c
    · subst hx
      have e : splitCh x (x :: xs) = [] :: splitCh x xs := by
        simp [splitCh]
      have h1 : lastD ([] :: splitCh x xs) = lastD (splitCh x xs) :=
        lastD_cons (splitCh_ne_nil x xs)
      rw [e, h1, ih]
      unfold afterLastCh
      rw [List.reverse_cons, takeWhile_append_one hpc]
    · simp only [splitCh, if_neg hx]
      cases hS : splitCh c xs with
      | nil => exact absurd hS (splitCh_ne_nil c xs)
      | cons s t =>
        cases ht : t with
        | nil =>
          subst ht
          obtain ⟨hs, hnm⟩ := splitCh_single hS
          have hnm' : c ∉ x :: xs := by
            intro hm
            rcases List.mem_cons.mp hm with h1 | h2
            · exact hx h1.symm
            · exact hnm h2
          rw [afterLastCh_not_mem hnm', hs]
          simp [lastD]
        | cons u v =>
          subst ht
          have hmem : c ∈ xs := by
            by_contra hnm
            rw [splitCh_not_mem hnm] at hS
            simp at hS
          have h2 : lastD ((x :: s) :: u :: v) = lastD (s :: u :: v) := by
            simp [lastD]
          rw [h2, ← hS, ih]
          unfold afterLastCh
          rw [List.reverse_cons,
            takeWhile_append_last xs.reverse [x]
              ⟨c, List.mem_reverse.mpr hmem, by simp⟩]

theorem lastD_concat (L : List (List Char)) (a : List Char) : lastD (L ++ [a]) = a := by
  induction L with
  | nil => simp [lastD]
  | cons b L ih =>
    cases L with
    | nil => simp [lastD]
    | cons u v => simpa [lastD] using ih

theorem dropLast_concat_lastD {L : List (List Char)} (h : L ≠ []) :
    L.dropLast ++ [lastD L] = L := by
  induction L with
  | nil => exact absurd rfl h
  | cons s t ih =>
    cases t with
    | nil => simp [lastD]
    | cons u v =>
      have hne : u :: v ≠ ([] : List (List Char)) := by simp
      calc (s :: u :: v).dropLast ++ [lastD (s :: u :: v)]
          = s :: ((u :: v).dropLast ++ [lastD (u :: v)]) := by
            simp [List.dropLast, lastD]
        _ = s :: u :: v := by rw [ih hne]

theorem joinSlash_concat (s : List Char) (t : List (List Char)) (x : List Char) :
    joinSlash ((s :: t) ++ [x]) = joinSlash (s :: t) ++ '/' :: x := by
  induction t generalizing s with
  | nil => simp [joinSlash]
  | cons u v ih =>
    have h1 : joinSlash (s :: u :: (v ++ [x])) = s ++ '/' :: joinSlash (u :: (v ++ [x])) := by
      simp [joinSlash]
    have h2 : joinSlash (s :: u :: v) = s ++ '/' :: joinSlash (u :: v) := by
      simp [joinSlash]
    simp only [List.cons_append] at ih ⊢
    rw [h1, ih u, h2]
    simp

theorem joinSlash_ne_nil {L : List (List Char)} (hL : L ≠ [])
    (h : ∀ s ∈ L, s ≠ []) : joinSlash L ≠ [] := by
  cases L with
  | nil => exact absurd rfl hL
  | cons s t =>
    cases t with
    | nil => simpa [joinSlash] using h s (by simp)
    | cons u v => simp [joinSlash]

theorem mkFile_recOK {n : Nat} {fp hd : List Char} {r : MegaFile}
    (h : mkFile n fp hd = some r) : recOK r ∧ r.id = n := by
  simp only [mkFile] at h
  split at h
  · exact absurd h (by simp)
  · next hg =>
    injection h with h'
    subst h'
    refine ⟨⟨?_, rfl, rfl, rfl⟩, rfl⟩
    intro hnil
    exact hg (by rw [hnil]; rfl)

theorem lineStep_some {n : Nat} {l : List Char} {r : MegaFile}
    (h : lineStep n l = some r) : recOK r ∧ r.id = n ∧ hasMarker l = true := by
  unfold lineStep at h
  split at h
  · next hm =>
    split at h
    · exact ⟨(mkFile_recOK h).1, (mkFile_recOK h).2, hm⟩
    · cases h
  · cases h

theorem lineStep_none {n : Nat} {l : List Char} (h : hasMarker l = false) :
    lineStep n l = none := by
  unfold lineStep
  rw [h]
  simp

theorem parseLines_mem_recOK {r : MegaFile} :
    ∀ {ls : List (List Char)} {n : Nat}, r ∈ parseLines ls n → recOK r := by
  intro ls
  induction ls with
  | nil => intro n h; simp [parseLines] at h
  | cons l ls ih =>
    intro n h
    unfold parseLines at h
    cases hs : lineStep n l with
    | some r0 =>
      rw [hs] at h
      rcases List.mem_cons.mp h with h1 | h2
      · exact h1 ▸ (lineStep_some hs).1
      · exact ih h2
    | none =>
      rw [hs] at h
      exact ih h

theorem parse_mem_recOK {text : List Char} {r : MegaFile}
    (h : r ∈ parse text) : recOK r :=
  parseLines_mem_recOK h

theorem parseLines_map_id (ls : List (List Char)) :
    ∀ n, (parseLines ls n).map (fun f => f.id)
      = List.range' n (parseLines ls n).length := by
  induction ls with
  | nil => intro n; simp [parseLines]
  | cons l ls ih =>
    intro n
    unfold parseLines
    cases hs : lineStep n l with
    | some r =>
      simp only [List.map_cons, List.length_cons, ih (n + 1), (lineStep_some hs).2.1,
        List.range'_succ]
    | none => exact ih n

theorem recon_eq_normal {r : MegaFile} (h : recOK r) :
    recon r = '/' :: joinSlash ((splitCh '/' r.fullPath).filter (fun s => ¬ s.isEmpty)) := by
  obtain ⟨hseg, hfn, hfo, hex⟩ := h
  set segs := (splitCh '/' r.fullPath).filter (fun s => ¬ s.isEmpty) with hsegs
  have hall : ∀ s ∈ segs, s ≠ [] := by
    intro s hs
    have := List.of_mem_filter hs
    simpa using this
  unfold recon
  rw [hfn, hfo]
  by_cases hlen : 1 < segs.length
  · rw [if_pos hlen]
    have hdl : segs.dropLast ≠ [] := by
      have hld : segs.dropLast.length = segs.length - 1 := List.length_dropLast segs
      intro hnil
      rw [hnil] at hld
      simp at hld
      omega
    have hjoin_ne : joinSlash segs.dropLast ≠ [] := by
      apply joinSlash_ne_nil hdl
      intro s hs
      exact hall s ((List.dropLast_sublist segs).subset hs)
    have hcond : ('/' :: joinSlash segs.dropLast) ≠ ['/'] := by
      intro heq
      injection heq with hh1 hh2
      exact hjoin_ne hh2
    rw [if_neg hcond]
    have hrestore : segs.dropLast ++ [lastD segs] = segs := dropLast_concat_lastD hseg
    cases hd : segs.dropLast with
    | nil => exact absurd hd hdl
    | cons s0 t0 =>
      calc ('/' :: joinSlash (s0 :: t0)) ++ '/' :: lastD segs
          = '/' :: (joinSlash (s0 :: t0) ++ '/' :: lastD segs) := by simp
        _ = '/' :: joinSlash ((s0 :: t0) ++ [lastD segs]) := by rw [joinSlash_concat]
        _ = '/' :: joinSlash segs := by rw [← hd, hrestore]
  · rw [if_neg hlen, if_pos rfl]
    have hlen1 : segs.length = 1 := by
      have := List.length_pos.mpr hseg
      omega
    obtain ⟨a, ha⟩ := List.length_eq_one.mp hlen1
    rw [ha]
    simp [lastD, joinSlash]

theorem parseLines_length_le (ls : List (List Char)) :
    ∀ n, (parseLines ls n).length ≤ ls.countP (fun l => hasMarker l) := by
  induction ls with
  | nil => intro n; simp [parseLines]
  | cons l ls ih =>
    intro n
    unfold parseLines
    cases hs : lineStep n l with
    | some r =>
      have hm : hasMarker l = true := (lineStep_some hs).2.2
      simp only [List.length_cons, List.countP_cons, hm]
      simpa using Nat.add_le_add_right (ih (n + 1)) 1
    | none =>
      calc (parseLines ls n).length ≤ ls.countP (fun l => hasMarker l) := ih n
        _ ≤ (l :: ls).countP (fun l => hasMarker l) := by
            simp only [List.countP_cons]
            exact Nat.le_add_right _ _

/-- C1 counterexample: the line `/docs/README <H:h1>` parses to a record whose
`fileName` contains no `.`, yet its extension is `readme` (the lowercased
whole filename, from JS `split('.').pop()`), not the empty string the claim
requires. -/
theorem parse_extension_no_dot_nonempty :
    (parse ("/docs/README <H:h1>".toList)).map (fun r => r.fileName)
        = [("README".toList)]
    ∧ ('.' ∉ ("README".toList))
    ∧ (parse ("/docs/README <H:h1>".toList)).map (fun r => r.extension)
        = [("readme".toList)]
    ∧ ("readme".toList) ≠ ([] : List Char) := by decide

/-- C1 (corrected): for every record produced by `parse`, the extension is the
lowercased suffix of `fileName` after the final `.`; when `fileName` contains
no `.`, the extension is the lowercased `fileName` itself (not the empty
string). -/
theorem parse_extension_after_last_dot (text : List Char) (r : MegaFile)
    (hr : r ∈ parse text) :
    r.extension = lowerStr (afterLastCh '.' r.fileName) ∧
    ('.' ∉ r.fileName → r.extension = lowerStr r.fileName) := by
  obtain ⟨hseg, hfn, hfo, hex⟩ := parse_mem_recOK hr
  constructor
  · rw [hex, lastD_splitCh]
  · intro hnd
    rw [hex, lastD_splitCh, afterLastCh_not_mem hnd]

/-- C1 witness: the theorem applied to the record parsed from
`/a.txt <H:h1>`. -/
theorem parse_extension_after_last_dot_inst :
    fileA.extension = lowerStr (afterLastCh '.' fileA.fileName) ∧
    ('.' ∉ fileA.fileName → fileA.extension = lowerStr fileA.fileName) :=
  parse_extension_after_last_dot (("/a.txt <H:h1>").toList) fileA (by decide)

/-- C2 counterexample: the line `docs/a.txt <H:h2>` (no leading slash) parses
to a record with `fullPath = docs/a.txt` but `folderPath = /docs`, so the
reconstruction `folderPath + "/" + fileName = /docs/a.txt` differs from
`fullPath`. -/
theorem parse_roundtrip_not_normalized :
    (parse ("docs/a.txt <H:h2>".toList)).map (fun r => recon r)
        = [("/docs/a.txt".toList)]
    ∧ (parse ("docs/a.txt <H:h2>".toList)).map (fun r => r.fullPath)
        = [("docs/a.txt".toList)]
    ∧ ("/docs/a.txt".toList) ≠ ("docs/a.txt".toList) := by decide

/-- C2 (corrected): for every record produced by `parse` (all of which have at
least one path segment), the reconstruction `folderPath + "/" + fileName`
(with folderPath `/` treated as empty) equals `/` followed by the record's
non-empty path segments joined with `/`; it reconstructs `fullPath` exactly
when `fullPath` is already in that normalized form (the code stores the path
capture verbatim, without normalizing slashes). -/
theorem parse_roundtrip_normalized (text : List Char) (r : MegaFile)
    (hr : r ∈ parse text) :
    recon r = '/' :: joinSlash ((splitCh '/' r.fullPath).filter (fun s => ¬ s.isEmpty)) ∧
    (r.fullPath = '/' :: joinSlash ((splitCh '/' r.fullPath).filter (fun s => ¬ s.isEmpty)) →
      recon r = r.fullPath) := by
  have h1 := recon_eq_normal (parse_mem_recOK hr)
  exact ⟨h1, fun hnorm => h1.trans hnorm.symm⟩

/-- C2 witness: the theorem applied to the record parsed from
`/a.txt <H:h1>`, whose `fullPath` is normalized, giving the exact round
trip. -/
theorem parse_roundtrip_normalized_inst :
    recon fileA = fileA.fullPath :=
  (parse_roundtrip_normalized (("/a.txt <H:h1>").toList) fileA (by decide)).2 (by decide)

/-- C5 (confirmed): a line without the literal `<H:` marker contributes no
record, and the number of records `parse` produces is at most the number of
input lines containing the marker (each line contributes at most one
record). -/
theorem parse_marker_bound :
    (∀ (n : Nat) (l : List Char), hasMarker l = false → lineStep n l = none) ∧
    ∀ text : List Char,
      (parse text).length ≤ (splitCh '\n' text).countP (fun l => hasMarker l) := by
  constructor
  · intro n l h
    exact lineStep_none h
  · intro text
    exact parseLines_length_le (splitCh '\n' text) 0

/-- C5 witness: a prompt line is dropped, and a two-line input with one marker
line yields at most one record. -/
theorem parse_marker_bound_inst :
    lineStep 0 ("mega> ls -la".toList) = none ∧
    (parse ("mega> ls -la\n/docs/report.pdf <H:HANDLE1>".toList)).length ≤
      (splitCh '\n' ("mega> ls -la\n/docs/report.pdf <H:HANDLE1>".toList)).countP
        (fun l => hasMarker l) :=
  ⟨parse_marker_bound.1 0 (("mega> ls -la").toList) (by decide),
   parse_marker_bound.2 (("mega> ls -la\n/docs/report.pdf <H:HANDLE1>").toList)⟩

/-- C8 (confirmed): the ids of the records produced by `parse` are exactly
`0..N-1` in output order — each record's id is its 0-based position, skipped
lines consume no id. -/
theorem parse_ids_dense (text : List Char) :
    (parse text).map (fun f => f.id) = List.range (parse text).length := by
  unfold parse
  rw [parseLines_map_id (splitCh '\n' text) 0, List.range_eq_range']

theorem genStep_length_le (recs : List MegaFile) (limit j : Nat) (b : List MegaFile)
    (h : b.length ≤ limit) : (genStep recs limit j b).length ≤ limit := by
  by_cases hlt : b.length < limit
  · cases hj : recs[j]? with
    | none => simp only [genStep, if_pos hlt, hj]; exact h
    | some f =>
      by_cases hmem : f.id ∈ b.map (fun g => g.id)
      · simp only [genStep, if_pos hlt, hj, if_pos hmem]; exact h
      · simp only [genStep, if_pos hlt, hj, if_neg hmem, List.length_append]
        simpa using hlt
  · simp only [genStep, if_neg hlt]; exact h

theorem genIter_length_le (recs : List MegaFile) (limit : Nat) (s : Nat → Nat) :
    ∀ k, (genIter recs limit s k).length ≤ limit := by
  intro k
  induction k with
  | zero => simp [genIter]
  | succ k ih => exact genStep_length_le recs limit (s k) _ ih

theorem genStep_grows (recs : List MegaFile) (limit j : Nat) (b : List MegaFile) :
    b <+: genStep recs limit j b := by
  by_cases hlt : b.length < limit
  · cases hj : recs[j]? with
    | none =>
      simp only [genStep, if_pos hlt, hj]
      exact List.prefix_refl b
    | some f =>
      by_cases hmem : f.id ∈ b.map (fun g => g.id)
      · simp only [genStep, if_pos hlt, hj, if_pos hmem]
        exact List.prefix_refl b
      · simp only [genStep, if_pos hlt, hj, if_neg hmem]
        exact ⟨[f], rfl⟩
  · simp only [genStep, if_neg hlt]
    exact List.prefix_refl b

theorem genIter_grows_le (recs : List MegaFile) (limit : Nat) (s : Nat → Nat)
    {a b : Nat} (h : a ≤ b) :
    genIter recs limit s a <+: genIter recs limit s b := by
  induction h with
  | refl => exact List.prefix_refl _
  | step h ih => exact ih.trans (genStep_grows recs limit _ _)

theorem genIter_ids_mono (recs : List MegaFile) (limit : Nat) (s : Nat → Nat)
    {a b : Nat} (h : a ≤ b) :
    ∀ x ∈ (genIter recs limit s a).map (fun g => g.id),
      x ∈ (genIter recs limit s b).map (fun g => g.id) := by
  intro x hx
  exact List.map_subset _ (genIter_grows_le recs limit s h).subset hx

theorem genIter_nodup (recs : List MegaFile) (limit : Nat) (s : Nat → Nat) (k : Nat) :
    ((genIter recs limit s k).map (fun f => f.id)).Nodup := by
  induction k with
  | zero => simp [genIter]
  | succ k ih =>
    have e : genIter recs limit s (k + 1) = genStep recs limit (s k) (genIter recs limit s k) :=
      rfl
    rw [e]
    by_cases hlt : (genIter recs limit s k).length < limit
    · cases hj : recs[s k]? with
      | none => simp only [genStep, if_pos hlt, hj]; exact ih
      | some f =>
        by_cases hmem : f.id ∈ (genIter recs limit s k).map (fun g => g.id)
        · simp only [genStep, if_pos hlt, hj, if_pos hmem]; exact ih
        · simp only [genStep, if_pos hlt, hj, if_neg hmem, List.map_append]
          refine List.Nodup.append ih (List.nodup_singleton f.id) ?_
          intro a ha hb
          simp only [List.map_cons, List.map_nil, List.mem_singleton] at hb
          exact hmem (hb ▸ ha)
    · simp only [genStep, if_neg hlt]; exact ih

theorem genStep_subset (recs : List MegaFile) (limit j : Nat) (b : List MegaFile) :
    ∀ f ∈ genStep recs limit j b, f ∈ recs ∨ f ∈ b := by
  by_cases hlt : b.length < limit
  · cases hj : recs[j]? with
    | none =>
      simp only [genStep, if_pos hlt, hj]
      exact fun f hf => Or.inr hf
    | some g =>
      by_cases hmem : g.id ∈ b.map (fun x => x.id)
      · simp only [genStep, if_pos hlt, hj, if_pos hmem]
        exact fun f hf => Or.inr hf
      · simp only [genStep, if_pos hlt, hj, if_neg hmem]
        intro f hf
        rcases List.mem_append.mp hf with h1 | h2
        · exact Or.inr h1
        · left
          have hfg : f = g := by simpa using h2
          exact hfg ▸ List.getElem?_mem hj
  · simp only [genStep, if_neg hlt]
    exact fun f hf => Or.inr hf

theorem genIter_subset (recs : List MegaFile) (limit : Nat) (s : Nat → Nat) (k : Nat) :
    ∀ f ∈ genIter recs limit s k, f ∈ recs := by
  induction k with
  | zero => simp [genIter]
  | succ k ih =>
    intro f hf
    rcases genStep_subset recs limit (s k) _ f hf with h1 | h2
    · exact h1
    · exact ih f h2

theorem genStep_mem_id (recs : List MegaFile) (limit : Nat) {j : Nat}
    {b : List MegaFile} {f : MegaFile}
    (hlt : b.length < limit) (hj : recs[j]? = some f) :
    f.id ∈ (genStep recs limit j b).map (fun g => g.id) := by
  by_cases hmem : f.id ∈ b.map (fun g => g.id)
  · simp only [genStep, if_pos hlt, hj, if_pos hmem]
    exact hmem
  · simp only [genStep, if_pos hlt, hj, if_neg hmem, List.map_append]
    simp

theorem genIter_cover (recs : List MegaFile) (limit : Nat) (s : Nat → Nat)
    (hA : ∀ k, (genIter recs limit s k).length < limit)
    (hfair : ∀ i, i < recs.length → ∃ k, s k = i) :
    ∀ m, m ≤ recs.length → ∃ K, ∀ i, i < m → ∀ f, recs[i]? = some f →
      f.id ∈ (genIter recs limit s K).map (fun g => g.id) := by
  intro m
  induction m with
  | zero => exact fun _ => ⟨0, fun i hi => absurd hi (Nat.not_lt_zero i)⟩
  | succ m ih =>
    intro hm
    obtain ⟨K0, hK0⟩ := ih (Nat.le_of_succ_le hm)
    obtain ⟨km, hkm⟩ := hfair m (Nat.lt_of_lt_of_le (Nat.lt_succ_self m) hm)
    refine ⟨max K0 (km + 1), ?_⟩
    intro i hi f hf
    rcases Nat.lt_succ_iff_lt_or_eq.mp hi with hi' | hieq
    · exact genIter_ids_mono recs limit s (Nat.le_max_left _ _) _ (hK0 i hi' f hf)
    · subst hieq
      have hstep : f.id ∈ (genIter recs limit s (km + 1)).map (fun g => g.id) := by
        show f.id ∈ (genStep recs limit (s km) (genIter recs limit s km)).map _
        exact genStep_mem_id recs limit (hA km) (by rw [hkm]; exact hf)
      exact genIter_ids_mono recs limit s (Nat.le_max_right _ _) _ hstep

theorem genIter_limit_zero (recs : List MegaFile) (s : Nat → Nat) (k : Nat) :
    genIter recs 0 s k = [] := by
  induction k with
  | zero => rfl
  | succ k ih =>
    show genStep recs 0 (s k) _ = []
    rw [ih]
    unfold genStep
    simp

/-- C3 counterexample: on a state with an empty record set but a non-empty
existing batch and selection, `generateBatch` returns early and does not
replace them — the batch does not end empty and the selection does not end
none. -/
theorem generateBatch_empty_not_replacing :
    ¬ (((generateBatch (fun _ => 0) 0 10
          { database := [], currentBatch := [fileA], currentFile := some fileA }).currentBatch
            = [])
       ∧ ((generateBatch (fun _ => 0) 0 10
          { database := [], currentBatch := [fileA], currentFile := some fileA }).currentFile
            = none)) := by
  decide

/-- C3 (corrected): on an empty record set, `generateBatch` draws an empty
sequence and is an early-return no-op leaving the whole state — including any
existing batch and selection — unchanged, for any requested count; the batch
ends empty and the selection none exactly when they already were (as in every
reachable state with an empty record set). -/
theorem generateBatch_empty_noop (s : Nat → Nat) (k count : Nat) (st : PickerState)
    (h : st.database = []) :
    genIter st.database (min count st.database.length) s k = [] ∧
    generateBatch s k count st = st := by
  have hl : st.database.length = 0 := by rw [h]; rfl
  constructor
  · have hlim : min count st.database.length = 0 := by rw [hl]; simp
    rw [hlim]
    exact genIter_limit_zero st.database s k
  · unfold generateBatch
    rw [if_pos hl]

/-- C3 witness: the theorem applied to the initial state. -/
theorem generateBatch_empty_noop_inst :
    genIter ([] : List MegaFile) (min 10 ([] : List MegaFile).length) (fun _ => 0) 3 = [] ∧
    generateBatch (fun _ => 0) 3 10
        { database := [], currentBatch := [], currentFile := none }
      = { database := [], currentBatch := [], currentFile := none } :=
  generateBatch_empty_noop (fun _ => 0) 3 10
    { database := [], currentBatch := [], currentFile := none } rfl

/-- C4 (confirmed): on a non-empty record set with distinct ids, whenever the
rejection-sampling loop has filled the batch (after `k` draws from stream
`s`), the resulting batch has size `min count |records|`, its ids are
distinct, and when `count ≥ |records|` its ids are a permutation of the
record set's ids. -/
theorem generateBatch_distinct_perm (st : PickerState) (count k : Nat) (s : Nat → Nat)
    (hne : st.database ≠ [])
    (_hnd : (st.database.map (fun f => f.id)).Nodup)
    (hterm : min count st.database.length ≤
      (genIter st.database (min count st.database.length) s k).length) :
    (generateBatch s k count st).currentBatch.length = min count st.database.length ∧
    ((generateBatch s k count st).currentBatch.map (fun f => f.id)).Nodup ∧
    (st.database.length ≤ count →
      ((generateBatch s k count st).currentBatch.map (fun f => f.id)).Perm
        (st.database.map (fun f => f.id))) := by
  have hlen0 : ¬ st.database.length = 0 := by
    intro h0
    exact hne (List.length_eq_zero.mp h0)
  have hgb : (generateBatch s k count st).currentBatch
      = genIter st.database (min count st.database.length) s k := by
    unfold generateBatch
    rw [if_neg hlen0]
  rw [hgb]
  have hlen : (genIter st.database (min count st.database.length) s k).length
      = min count st.database.length :=
    Nat.le_antisymm (genIter_length_le st.database _ s k) hterm
  refine ⟨hlen, genIter_nodup st.database _ s k, ?_⟩
  intro hcount
  have hlimit_n : min count st.database.length = st.database.length :=
    Nat.min_eq_right hcount
  have hsub : (genIter st.database (min count st.database.length) s k).map (fun f => f.id)
      ⊆ st.database.map (fun f => f.id) :=
    List.map_subset _ (fun f hf => genIter_subset st.database _ s k f hf)
  have hsp := List.subperm_of_subset (genIter_nodup st.database _ s k) hsub
  apply hsp.perm_of_length_le
  rw [List.length_map, List.length_map, hlen, hlimit_n]

/-- C4 witness: drawing from a two-record set with stream `0,1,...` fills the
batch after two draws; with `count = 3 ≥ 2` the drawn ids are a permutation of
the set's ids. -/
theorem generateBatch_distinct_perm_inst :
    (generateBatch (fun n => n) 2 3
        { database := [fileA, fileB], currentBatch := [], currentFile := none }).currentBatch.length
      = min 3 ([fileA, fileB] : List MegaFile).length ∧
    ((generateBatch (fun n => n) 2 3
        { database := [fileA, fileB], currentBatch := [], currentFile := none }).currentBatch.map
          (fun f => f.id)).Nodup ∧
    (([fileA, fileB] : List MegaFile).length ≤ 3 →
      ((generateBatch (fun n => n) 2 3
          { database := [fileA, fileB], currentBatch := [], currentFile := none }).currentBatch.map
            (fun f => f.id)).Perm
        (([fileA, fileB] : List MegaFile).map (fun f => f.id))) :=
  generateBatch_distinct_perm
    { database := [fileA, fileB], currentBatch := [], currentFile := none }
    3 2 (fun n => n) (by decide) (by decide) (by decide)

/-- C6 counterexample: with two records and target `min 2 2 = 2`, the
execution trace that draws index 0 forever never fills the batch — the loop
does not terminate on every trace even when `count ≤ |records|`. -/
theorem generateBatch_loop_stuck :
    ¬ loopTerminates [fileA, fileB] (min 2 2) (fun _ => 0) := by
  intro h
  obtain ⟨k, hk⟩ := h
  have hsmall : ∀ k, genIter [fileA, fileB] (min 2 2) (fun _ => 0) k = []
      ∨ genIter [fileA, fileB] (min 2 2) (fun _ => 0) k = [fileA] := by
    intro k
    induction k with
    | zero => exact Or.inl rfl
    | succ k ih =>
      have e : genIter [fileA, fileB] (min 2 2) (fun _ => 0) (k + 1)
          = genStep [fileA, fileB] (min 2 2) 0
              (genIter [fileA, fileB] (min 2 2) (fun _ => 0) k) := rfl
      rcases ih with h0 | h1
      · right
        rw [e, h0]
        decide
      · right
        rw [e, h1]
        decide
  rcases hsmall k with h | h
  · rw [h] at hk
    exact absurd hk (by decide)
  · rw [h] at hk
    exact absurd hk (by decide)

/-- C6 (corrected): the rejection-sampling loop terminates whenever the
records' ids are distinct (as `parse` guarantees) and the draw stream
eventually draws every index — it need not terminate on an arbitrary (unfair)
trace, but fills the batch to `min count |records|` on every fair one. -/
theorem generateBatch_loop_terminates (recs : List MegaFile) (count : Nat) (s : Nat → Nat)
    (_hc : count ≤ recs.length)
    (hnd : (recs.map (fun f => f.id)).Nodup)
    (hfair : ∀ i, i < recs.length → ∃ k, s k = i) :
    loopTerminates recs (min count recs.length) s := by
  by_contra hterm
  unfold loopTerminates at hterm
  push_neg at hterm
  obtain ⟨K, hK⟩ := genIter_cover recs (min count recs.length) s hterm hfair
    recs.length (Nat.le_refl _)
  have hsub : (recs.map (fun f => f.id))
      ⊆ (genIter recs (min count recs.length) s K).map (fun g => g.id) := by
    intro x hx
    rcases List.mem_map.mp hx with ⟨f, hf, hfx⟩
    rcases List.mem_iff_getElem.mp hf with ⟨i, hilt, hi⟩
    exact hfx ▸ hK i hilt f (by rw [List.getElem?_eq_getElem hilt, hi])
  have hsp := List.subperm_of_subset hnd hsub
  have hlen := hsp.length_le
  rw [List.length_map, List.length_map] at hlen
  have hKlt := hterm K
  have hle : min count recs.length ≤ recs.length := Nat.min_le_right count recs.length
  omega

/-- C6 witness: the amended theorem applied to a two-record set with the fair
stream `k % 2`. -/
theorem generateBatch_loop_terminates_inst :
    loopTerminates [fileA, fileB] (min 2 ([fileA, fileB] : List MegaFile).length)
      (fun k => k % 2) :=
  generateBatch_loop_terminates [fileA, fileB] 2 (fun k => k % 2)
    (by decide) (by decide)
    (fun i hi => ⟨i, Nat.mod_eq_of_lt (by simpa using hi)⟩)

/-- C7 (confirmed): `pickRandomFile` on an empty record set returns the state
unchanged; on a non-empty set the drawn record becomes the current selection
and is prepended to the batch if and only if no batch entry already has its
id; two successive picks on a single-record set return that record both times
and leave exactly one batch entry. -/
theorem pickRandomFile_behavior :
    (∀ (j : Nat) (st : PickerState), st.database = [] → pickRandomFile j st = st) ∧
    (∀ (j : Nat) (st : PickerState) (h : j < st.database.length),
      (pickRandomFile j st).currentFile = some (st.database.get ⟨j, h⟩) ∧
      (pickRandomFile j st).database = st.database ∧
      ((∃ g ∈ st.currentBatch, g.id = (st.database.get ⟨j, h⟩).id) →
        (pickRandomFile j st).currentBatch = st.currentBatch) ∧
      ((¬ ∃ g ∈ st.currentBatch, g.id = (st.database.get ⟨j, h⟩).id) →
        (pickRandomFile j st).currentBatch
          = st.database.get ⟨j, h⟩ :: st.currentBatch)) ∧
    (∀ (r : MegaFile) (j1 j2 : Nat), j1 < 1 → j2 < 1 →
      (pickRandomFile j1
          { database := [r], currentBatch := [], currentFile := none }).currentFile
        = some r ∧
      (pickRandomFile j2 (pickRandomFile j1
          { database := [r], currentBatch := [], currentFile := none })).currentFile
        = some r ∧
      (pickRandomFile j2 (pickRandomFile j1
          { database := [r], currentBatch := [], currentFile := none })).currentBatch
        = [r]) := by
  refine ⟨?_, ?_, ?_⟩
  · intro j st h
    unfold pickRandomFile
    rw [if_pos (by rw [h]; rfl)]
  · intro j st h
    have hne : ¬ st.database.length = 0 := by omega
    have hj : st.database[j]? = some (st.database.get ⟨j, h⟩) := by
      rw [List.getElem?_eq_getElem h]
      simp [List.get_eq_getElem]
    refine ⟨?_, ?_, ?_, ?_⟩
    · simp only [pickRandomFile, if_neg hne, hj]
    · by_cases hc : ((st.currentBatch.find?
          (fun g => g.id == (st.database.get ⟨j, h⟩).id)).isSome : Prop)
      · simp only [pickRandomFile, if_neg hne, hj, if_pos hc]
      · simp only [pickRandomFile, if_neg hne, hj, if_neg hc]
    · intro hex
      have hc : ((st.currentBatch.find?
          (fun g => g.id == (st.database.get ⟨j, h⟩).id)).isSome : Prop) := by
        rw [List.find?_isSome]
        rcases hex with ⟨g, hg, hid⟩
        exact ⟨g, hg, by simp [hid]⟩
      simp only [pickRandomFile, if_neg hne, hj, if_pos hc]
    · intro hnex
      have hc : ¬ ((st.currentBatch.find?
          (fun g => g.id == (st.database.get ⟨j, h⟩).id)).isSome : Prop) := by
        rw [List.find?_isSome]
        rintro ⟨g, hg, hid⟩
        exact hnex ⟨g, hg, by simpa using hid⟩
      simp only [pickRandomFile, if_neg hne, hj, if_neg hc]
  · intro r j1 j2 h1 h2
    have e1 : j1 = 0 := Nat.lt_one_iff.mp h1
    have e2 : j2 = 0 := Nat.lt_one_iff.mp h2
    subst e1
    subst e2
    have step1 : pickRandomFile 0 { database := [r], currentBatch := [], currentFile := none }
        = { database := [r], currentBatch := [r], currentFile := some r } := by
      simp [pickRandomFile]
    have step2 : pickRandomFile 0 { database := [r], currentBatch := [r], currentFile := some r }
        = { database := [r], currentBatch := [r], currentFile := some r } := by
      simp [pickRandomFile, List.find?]
    rw [step1, step2]
    exact ⟨rfl, rfl, rfl⟩

/-- C7 witness: the theorem applied to the empty state and to the
single-record state `[fileA]`. -/
theorem pickRandomFile_behavior_inst :
    pickRandomFile 0 { database := [], currentBatch := [], currentFile := none }
      = { database := [], currentBatch := [], currentFile := none } ∧
    (pickRandomFile 0 (pickRandomFile 0
        { database := [fileA], currentBatch := [], currentFile := none })).currentBatch
      = [fileA] :=
  ⟨pickRandomFile_behavior.1 0
      { database := [], currentBatch := [], currentFile := none } rfl,
   (pickRandomFile_behavior.2.2 fileA 0 0 (by decide) (by decide)).2.2⟩

/-- C9 (confirmed): `getFileType` is a total deterministic function of the
extension: equal extensions give equal categories, and any extension outside
the four fixed recognized sets — including the empty string — yields
`file`. -/
theorem getFileType_total_default :
    (∀ e1 e2 : List Char, e1 = e2 → getFileType e1 = getFileType e2) ∧
    (∀ e : List Char, e ∉ imageExts → e ∉ videoExts → e ∉ audioExts → e ∉ docExts →
      getFileType e = ("file".toList)) ∧
    getFileType ([] : List Char) = ("file".toList) := by
  refine ⟨fun e1 e2 h => by rw [h], ?_, by decide⟩
  intro e h1 h2 h3 h4
  unfold getFileType
  rw [if_neg h1, if_neg h2, if_neg h3, if_neg h4]

/-- C9 witness: an unrecognized extension maps to `file`. -/
theorem getFileType_total_default_inst :
    getFileType ("zzz".toList) = ("file".toList) :=
  getFileType_total_default.2.1 (("zzz").toList)
    (by decide) (by decide) (by decide) (by decide)

/-- C10 (confirmed): each operation — upload/parse, single pick, batch draw,
clear batch, reset — preserves the invariant that a non-null current
selection has its id present in some entry of the current batch. -/
theorem selection_in_batch (st : PickerState) (hinv : selInv st = true) :
    (∀ text : List Char, selInv (handleFileUpload text st) = true) ∧
    (∀ j : Nat, selInv (pickRandomFile j st) = true) ∧
    (∀ (s : Nat → Nat) (k count : Nat), selInv (generateBatch s k count st) = true) ∧
    selInv (clearBatch st) = true ∧
    selInv (resetApp st) = true := by
  refine ⟨fun text => rfl, ?_, ?_, rfl, rfl⟩
  · intro j
    by_cases hne : st.database.length = 0
    · simp only [pickRandomFile, if_pos hne]
      exact hinv
    · cases hj : st.database[j]? with
      | none =>
        simp only [pickRandomFile, if_neg hne, hj]
        exact hinv
      | some f =>
        by_cases hc : ((st.currentBatch.find? (fun g => g.id == f.id)).isSome : Prop)
        · simp only [pickRandomFile, if_neg hne, hj, if_pos hc, selInv]
          rcases List.find?_isSome.mp hc with ⟨g, hg, hid⟩
          exact List.any_eq_true.mpr ⟨g, hg, hid⟩
        · simp only [pickRandomFile, if_neg hne, hj, if_neg hc, selInv]
          exact List.any_eq_true.mpr ⟨f, by simp, by simp⟩
  · intro s k count
    by_cases hne : st.database.length = 0
    · simp only [generateBatch, if_pos hne]
      exact hinv
    · simp only [generateBatch, if_neg hne]
      cases hb : genIter st.database (min count st.database.length) s k with
      | nil => rfl
      | cons f t =>
        simp only [selInv, List.head?]
        exact List.any_eq_true.mpr ⟨f, by simp, by simp⟩

/-- C10 witness: the theorem applied to the initial state, for the pick and
clear operations. -/
theorem selection_in_batch_inst :
    selInv (pickRandomFile 0
        { database := [], currentBatch := [], currentFile := none }) = true ∧
    selInv (clearBatch
        { database := [], currentBatch := [], currentFile := none }) = true :=
  ⟨(selection_in_batch { database := [], currentBatch := [], currentFile := none } rfl).2.1 0,
   (selection_in_batch { database := [], currentBatch := [], currentFile := none } rfl).2.2.2.1⟩
